import Mathlib

/-!
Shallow embedding of `coverage_estimator3.py` (mhozza/coverage-estimator).
Python floats are modelled as real numbers; Python ints as `ℕ` (all integer
quantities involved are non-negative); Python `None` placeholders at index 0
of probability lists are modelled as the real number 0 (no claim accesses
index 0); a Python `dict` built from input lines is modelled as a function
`ℕ → ℕ` built by `Function.update` (later lines overwrite earlier ones).
Division by zero in the reals follows Lean's convention `x / 0 = 0`; every
claim that exercises a division carries hypotheses that keep the divisor
nonzero, matching the guards in the source.
-/

namespace CovEst

open Finset

/-- `tr_poisson(l, j)` from coverage_estimator3.py lines 119-133: the
truncated-Poisson weight.  The source first returns 0 when `exp(l) == 1.0`
(precision fix), then computes `l^j / (j! * (exp l - 1))` when `l > 1e-8`
and `l^j / (j! * l)` otherwise.  Over the reals no overflow occurs, so the
`except OverflowError / FloatingPointError` branch is unreachable. -/
noncomputable def tr_poisson (l : ℝ) (j : ℕ) : ℝ :=
  if Real.exp l = 1 then 0
  else if 1e-8 < l then l ^ j / (j.factorial * (Real.exp l - 1))
  else l ^ j / (j.factorial * l)

/-- `safe_log` (lines 136-139): `log x` for positive `x`, `-INF` otherwise,
with `-INF` modelled as `⊥ : EReal`. -/
noncomputable def safe_log (x : ℝ) : EReal :=
  if x ≤ 0 then ⊥ else ((Real.log x : ℝ) : EReal)

/-- Read-to-kmer coverage conversion, line 145: `c = c * (r - k + 1) / r`. -/
noncomputable def c_kmer (r k : ℕ) (c : ℝ) : ℝ := c * ((r : ℝ) - k + 1) / r

/-- `l_s[s]` (line 147): Poisson rate for kmers with `s` errors.
`3 ** -s` is an integer power of a float in Python, modelled by `zpow`. -/
noncomputable def lam (r k : ℕ) (c err : ℝ) (s : ℕ) : ℝ :=
  c_kmer r k c * (3 : ℝ) ^ (-(s : ℤ)) * (1 - err) ^ (k - s) * err ^ s

/-- `n_s[s]` (line 149): expected share of kmers with `s` errors and
coverage at least 1; `comb(k, s)` is the binomial coefficient. -/
noncomputable def n_s (r k : ℕ) (c err : ℝ) (s : ℕ) : ℝ :=
  (k.choose s : ℝ) * (3 : ℝ) ^ s * (1 - Real.exp (-(lam r k c err s)))

/-- `sum_n_s` (line 150). -/
noncomputable def sum_n_s (r k : ℕ) (c err : ℝ) : ℝ :=
  ∑ t ∈ Finset.range (k + 1), n_s r k c err t

/-- `a_s[s]` (lines 152-155), including the division-by-zero fix: when
`sum_n_s == 0` the denominator is replaced by 1. -/
noncomputable def a_s (r k : ℕ) (c err : ℝ) (s : ℕ) : ℝ :=
  n_s r k c err s / (if sum_n_s r k c err = 0 then 1 else sum_n_s r k c err)

/-- Entry `j ≥ 1` of the list built on lines 158-160:
`p_j[j] = Σ_s a_s[s] * tr_poisson(l_s[s], j)`. -/
noncomputable def p_j (r k : ℕ) (c err : ℝ) (j : ℕ) : ℝ :=
  ∑ s ∈ Finset.range (k + 1), a_s r k c err s * tr_poisson (lam r k c err s) j

/-- `compute_probabilities(r, k, c, err, max_hist)` (lines 142-161): the list
`[None] + [p_j[j] for j in range(1, max_hist)]`, with the `None` placeholder
modelled as 0.  Memoization (`lru_cache`) is semantically transparent. -/
noncomputable def compute_probabilities (r k : ℕ) (c err : ℝ) (max_hist : ℕ) : List ℝ :=
  0 :: (List.range' 1 (max_hist - 1)).map (p_j r k c err)

/-- Row `o` of the repeat probability table built by `compute_repeat_table`
(lines 175-195).  Row 1 is `[None] + [p_j[j] for j in range(1, hist_size)]`;
row `o ≥ 2` entry `j` is `Σ_{i=1}^{j-1} p_oj[1][i] * p_oj[o-1][j-i]`
(the inner loop `for i in range(1, j)`); row 0 is the `[None]` placeholder
row.  All list accesses performed by the source stay inside the built range,
so `List.getD _ _ 0` agrees with Python indexing there. -/
noncomputable def repeat_row (r k : ℕ) (c err : ℝ) (hist_size : ℕ) : ℕ → List ℝ
  | 0 => [0]
  | 1 => 0 :: (List.range' 1 (hist_size - 1)).map (p_j r k c err)
  | (o + 2) => 0 :: (List.range' 1 (hist_size - 1)).map (fun j =>
      ∑ i ∈ Finset.Ico 1 j,
        (repeat_row r k c err hist_size 1).getD i 0 *
          (repeat_row r k c err hist_size (o + 1)).getD (j - i) 0)
  termination_by o => o
  decreasing_by all_goals omega

/-- `compute_repeat_table(r, k, c, err, hist_size, treshold_o)` (lines
175-195): rows 0 and 1 are always present; the loop `for o in range(2,
treshold_o)` (with `treshold_o = hist_size` when `None`) appends rows
`2 .. treshold_o - 1`, so the table always has `max 2 treshold_o` rows. -/
noncomputable def compute_repeat_table (r k : ℕ) (c err : ℝ) (hist_size : ℕ)
    (treshold_o : Option ℕ) : List (List ℝ) :=
  (List.range (max 2 (treshold_o.getD hist_size))).map (repeat_row r k c err hist_size)

/-- The repeat-count prior `b_o(o)` defined inside
`compute_probabilities_with_repeats` (lines 199-205).  The geometric tail
uses `(1 - q) ** (o - 3)`, an integer (possibly negative) power in Python,
modelled by `zpow`. -/
noncomputable def b_o (q1 q2 q : ℝ) (o : ℕ) : ℝ :=
  if o = 1 then q1
  else if o = 2 then (1 - q1) * q2
  else (1 - q1) * (1 - q2) * q * (1 - q) ^ ((o : ℤ) - 3)

/-- The truncation search of lines 207-212: the first `o` in
`range(1, hist_size)` with `b_o(o) < treshold`, scanned in order.
`fuel` is the number of values left to scan, `o` the next candidate. -/
noncomputable def find_treshold (q1 q2 q : ℝ) (tr : ℝ) : ℕ → ℕ → Option ℕ
  | 0, _ => none
  | (fuel + 1), o => if b_o q1 q2 q o < tr then some o else find_treshold q1 q2 q tr fuel (o + 1)

/-- `treshold_o` as computed on lines 207-212: `None` when the `treshold`
argument is `None`, otherwise the first `o ∈ [1, hist_size)` whose prior
mass falls below `treshold` (or `None` when no such `o` exists). -/
noncomputable def treshold_o_of (q1 q2 q : ℝ) (hist_size : ℕ) (tr : Option ℝ) : Option ℕ :=
  match tr with
  | none => none
  | some t => find_treshold q1 q2 q t (hist_size - 1) 1

/-- The closure `p_j` returned by `compute_probabilities_with_repeats`
(lines 198-223): `p_j(j) = Σ b_o(o) * p_oj[o][j]` with `o` ranging over
`range(1, min(j + 1, treshold_o))` when the truncation bound exists, and
`range(1, j + 1)` otherwise. -/
noncomputable def p_j_with_repeats (r k : ℕ) (c err q1 q2 q : ℝ) (hist_size : ℕ)
    (tr : Option ℝ) (j : ℕ) : ℝ :=
  let t := treshold_o_of q1 q2 q hist_size tr
  let p_oj := compute_repeat_table r k c err hist_size t
  ∑ o ∈ Finset.Ico 1 (match t with | some t' => min (j + 1) t' | none => j + 1),
    b_o q1 q2 q o * (p_oj.getD o []).getD j 0

/-- `compute_loglikelihood(hist, r, k, c, err)` (lines 164-172): the domain
guard returns `-INF` (`⊥ : EReal`); otherwise
`Σ_{j=1}^{len(hist)-1, hist[j] ≠ 0} hist[j] * safe_log(p_j[j])`. -/
noncomputable def compute_loglikelihood (hist : List ℕ) (r k : ℕ) (c err : ℝ) : EReal :=
  if err < 0 ∨ 1 ≤ err ∨ c ≤ 0 then ⊥
  else
    ∑ j ∈ Finset.Ico 1 hist.length,
      if hist.getD j 0 ≠ 0 then
        (hist.getD j 0 : EReal) * safe_log ((compute_probabilities r k c err hist.length).getD j 0)
      else 0

/-- `compute_loglikelihood_with_repeats(hist, r, k, c, err, q1, q2, q)`
(lines 226-230), with the same domain guard and the repeat-aware marginal
(default truncation tolerance 1e-8). -/
noncomputable def compute_loglikelihood_with_repeats (hist : List ℕ) (r k : ℕ)
    (c err q1 q2 q : ℝ) : EReal :=
  if err < 0 ∨ 1 ≤ err ∨ c ≤ 0 then ⊥
  else
    ∑ j ∈ Finset.Ico 1 hist.length,
      if hist.getD j 0 ≠ 0 then
        (hist.getD j 0 : EReal) *
          safe_log (p_j_with_repeats r k c err q1 q2 q hist.length (some 1e-8) j)
      else 0

/-! ## Histogram loading (`load_dist`, lines 60-87)

The input file is modelled as the list of its parsed lines, each a pair
`(multiplicity, count)`.  The `defaultdict(int)` becomes a function
`ℕ → ℕ` with default 0, later lines overwriting earlier ones. -/

/-- The dict `hist` after the reading loop of lines 67-78. -/
def hist_map (entries : List (ℕ × ℕ)) : ℕ → ℕ :=
  entries.foldl (fun h e => Function.update h e.1 e.2) (fun _ => 0)

/-- `max_hist` after the reading loop: the largest multiplicity read. -/
def max_hist_of (entries : List (ℕ × ℕ)) : ℕ :=
  entries.foldl (fun m e => max m e.1) 0

/-- The dense untrimmed list built on line 80:
`hist_l = [hist[b] for b in range(max_hist)]`. -/
def load_hist (entries : List (ℕ × ℕ)) : List ℕ :=
  (List.range (max_hist_of entries)).map (hist_map entries)

/-- `all_kmers` accumulated on line 78 (`+= i * cnt` for lines with `i ≥ 2`). -/
def all_kmers (entries : List (ℕ × ℕ)) : ℕ :=
  entries.foldl (fun acc e => if 2 ≤ e.1 then acc + e.1 * e.2 else acc) 0

/-- `unique_kmers` accumulated on line 77 (`+= cnt` for lines with `i ≥ 2`). -/
def unique_kmers (entries : List (ℕ × ℕ)) : ℕ :=
  entries.foldl (fun acc e => if 2 ≤ e.1 then acc + e.2 else acc) 0

/-- `observed_ones` set on lines 74-75 (the last line with `i == 1` wins). -/
def observed_ones (entries : List (ℕ × ℕ)) : ℕ :=
  entries.foldl (fun acc e => if e.1 = 1 then e.2 else acc) 0

/-! ## Analytic initial guess (`compute_coverage_apx`, lines 90-116) -/

/-- `estimate_p(cc, alpha)` (lines 42-43). -/
noncomputable def estimate_p (cc alpha : ℝ) : ℝ :=
  (cc * (alpha - 1)) / (alpha * cc - alpha - cc)

/-- Modelled from the spec: the module `inverse` (imported on line 8) is part
of this repository but absent from src/; per the spec it provides "a general
monotonic-function inverter (bisection/Newton over a bounded domain)" solving
`f(c) = raw_estimate` for `c`.  Modelled as a function inverse; no claim
exercises this path (the claims that touch `compute_coverage_apx` take the
degenerate branch that returns before `inverse` is called). -/
noncomputable def inverse (f : ℝ → ℝ) : ℝ → ℝ := Function.invFun f

/-- `compute_coverage_apx(all_kmers, unique_kmers, observed_ones, k, r)`
(lines 90-116).  `estimated_p ** (1.0 / k)` is a real power (`rpow`). -/
noncomputable def compute_coverage_apx (ak uk oo : ℕ) (k r : ℕ) : ℝ × ℝ :=
  if uk = 0 then (0, 1)
  else
    let total_unique_kmers : ℝ := (uk : ℝ) + oo
    let fn : ℝ → ℝ := fun cov =>
      (cov - cov * Real.exp (-cov)) / (1 - Real.exp (-cov) - cov * Real.exp (-cov))
    let cov : ℝ := inverse fn ((ak : ℝ) / uk)
    let uk' : ℝ := (uk : ℝ) / (1 - Real.exp (-cov) - cov * Real.exp (-cov))
    let estimated_ones : ℝ := uk' * cov * Real.exp (-cov)
    let estimated_zeros : ℝ := uk' * Real.exp (-cov)
    let error_ones : ℝ := max 0 ((oo : ℝ) - estimated_ones)
    let alpha : ℝ := error_ones / (total_unique_kmers + estimated_zeros)
    let estimated_p : ℝ := max 0 (estimate_p cov alpha)
    let e : ℝ := 1 - Real.rpow estimated_p (1 / (k : ℝ))
    if 0 < estimated_p then ((cov / estimated_p) * r / ((r : ℝ) - k + 1), e)
    else (0, e)

/-- The fallback substitution in `main` (lines 504-507):
`if cov == 0 and e == 1: cov = 1; e = 0.5`. -/
noncomputable def fallback_guess (g : ℝ × ℝ) : ℝ × ℝ :=
  if g.1 = 0 ∧ g.2 = 1 then (1, 0.5) else g

/-- The slice of `main` (lines 486-507) that produces the optimization
starting point from the loaded histogram data. -/
noncomputable def main_initial_guess (entries : List (ℕ × ℕ)) (k r : ℕ) : ℝ × ℝ :=
  fallback_guess
    (compute_coverage_apx (all_kmers entries) (unique_kmers entries) (observed_ones entries) k r)

/-! ## Optimizer (`minimize_grid` lines 378-428, `minimize_hillclimbing`
lines 431-479)

Both strategies share `generate_grid_single`, `filter_bounds` and the
Cartesian product; `minimize_hillclimbing` restricts the grid to one
randomly chosen coordinate per iteration (the random choice is modelled as
an arbitrary sequence of coordinate draws).  The `while` loop of
`minimize_grid` is modelled with explicit fuel; a `KeyboardInterrupt` is
modelled as stopping after some number of complete rounds plus a prefix of
the next round's grid scan, returning the current best point (the
`except KeyboardInterrupt` handlers on lines 424-425 and 475-476). -/

/-- Bounds as passed to the optimizers: optionally, per-dimension optional
lower/upper bounds. -/
def Bounds : Type := Option (List (Option ℝ × Option ℝ))

/-- `generate_grid_single(var)` (lines 381-385 and 434-438):
`var * step ** d` for `d in range(-max_depth, max_depth + 1), d != 0`. -/
noncomputable def generate_grid_single (var step : ℝ) (max_depth : ℕ) : List ℝ :=
  ((((List.range (2 * max_depth + 1)).map (fun n => (n : ℤ) - max_depth)).filter
    (fun d => d ≠ 0)).map (fun d => var * step ^ d))

/-- `filter_bounds(var_grid, i)` (lines 387-394 and 440-447): keep the
candidates inside the `i`-th box constraint; missing bounds filter nothing. -/
noncomputable def filter_bounds (bounds : Bounds) (var_grid : List ℝ) (i : ℕ) : List ℝ :=
  match bounds with
  | none => var_grid
  | some bs =>
    let lh := bs.getD i (none, none)
    var_grid.filter (fun v =>
      (match lh.1 with | none => true | some low => decide (low ≤ v)) &&
      (match lh.2 with | none => true | some high => decide (v ≤ high)))

/-- `itertools.product` over a list of per-dimension candidate lists. -/
def list_product {α : Type} : List (List α) → List (List α)
  | [] => [[]]
  | g :: rest => g.flatMap (fun x => (list_product rest).map (x :: ·))

/-- `generate_grid(args, step, max_depth)` of `minimize_grid`
(lines 380-400). -/
noncomputable def generate_grid (bounds : Bounds) (args : List ℝ) (step : ℝ)
    (max_depth : ℕ) : List (List ℝ) :=
  list_product (args.enum.map (fun p => filter_bounds bounds (generate_grid_single p.2 step max_depth) p.1))

/-- `generate_grid` of `minimize_hillclimbing` (lines 433-454): only the
randomly chosen coordinate `rc` gets candidates, the others stay fixed. -/
noncomputable def hc_generate_grid (bounds : Bounds) (args : List ℝ) (step : ℝ)
    (max_depth : ℕ) (rc : ℕ) : List (List ℝ) :=
  list_product (args.enum.map (fun p =>
    if p.1 = rc then filter_bounds bounds (generate_grid_single p.2 step max_depth) p.1
    else [p.2]))

/-- The inner `for args in generate_grid(...)` scan common to both
strategies (lines 415-419 and 468-473), threading
`(min_val, min_args, diff)`: each candidate improving the best value
replaces it and accumulates the improvement in `diff`
(`minimize_hillclimbing` tracks a boolean `modified` instead of `diff`;
the accumulated third component is simply unused there). -/
noncomputable def grid_scan (fn : List ℝ → ℝ) (pts : List (List ℝ))
    (acc : ℝ × List ℝ × ℝ) : ℝ × List ℝ × ℝ :=
  pts.foldl (fun acc args =>
    let val := fn args
    if val < acc.1 then (val, args, acc.2.2 + (acc.1 - val)) else acc) acc

/-- The mutable state of the `minimize_grid` loop. -/
structure GridState where
  min_val : ℝ
  min_args : List ℝ
  step : ℝ
  diff : ℝ

/-- One round of the `minimize_grid` `while` body (lines 413-423): reset
`diff`, scan the full grid, then shrink the step
(`step = 1 + (step - 1) * 0.75`) when the round's improvement is below 1.0. -/
noncomputable def grid_round (fn : List ℝ → ℝ) (bounds : Bounds) (st : GridState) : GridState :=
  let res := grid_scan fn (generate_grid bounds st.min_args st.step 3) (st.min_val, st.min_args, 0)
  { min_val := res.1
    min_args := res.2.1
    step := if res.2.2 < 1 then 1 + (st.step - 1) * 0.75 else st.step
    diff := res.2.2 }

/-- The `while (diff > 0.1 or step > 1.001)` loop of lines 412-423, with
fuel.  The boolean records whether the loop exited through its own
condition (`true`) or ran out of fuel (`false`). -/
noncomputable def grid_loop (fn : List ℝ → ℝ) (bounds : Bounds) :
    ℕ → GridState → GridState × Bool
  | 0, st => (st, false)
  | (n + 1), st =>
    if 0.1 < st.diff ∨ 1.001 < st.step then grid_loop fn bounds n (grid_round fn bounds st)
    else (st, true)

/-- `minimize_grid(fn, initial_guess, bounds)` (lines 378-428): state starts
at `min_val = fn(initial_guess)`, `step = 1.1`, `diff = 1`; the answer is
`min_args` of the final state. -/
noncomputable def minimize_grid (fn : List ℝ → ℝ) (initial_guess : List ℝ)
    (bounds : Bounds) (fuel : ℕ) : List ℝ :=
  (grid_loop fn bounds fuel ⟨fn initial_guess, initial_guess, 1.1, 1⟩).1.min_args

/-- The loop state reached after `n` (conditional) rounds of
`minimize_grid`; used to model an interrupt arriving after `n` rounds. -/
noncomputable def grid_state_iter (fn : List ℝ → ℝ) (bounds : Bounds) :
    ℕ → GridState → GridState
  | 0, st => st
  | (n + 1), st =>
    if 0.1 < st.diff ∨ 1.001 < st.step then grid_state_iter fn bounds n (grid_round fn bounds st)
    else st

/-- A `minimize_grid` run interrupted by `KeyboardInterrupt` after `m`
complete rounds and `p` further candidate evaluations of the next round:
the handler (lines 424-428) returns the current `min_args`. -/
noncomputable def minimize_grid_interrupted (fn : List ℝ → ℝ) (initial_guess : List ℝ)
    (bounds : Bounds) (m p : ℕ) : List ℝ :=
  let st := grid_state_iter fn bounds m ⟨fn initial_guess, initial_guess, 1.1, 1⟩
  (grid_scan fn ((generate_grid bounds st.min_args st.step 3).take p)
    (st.min_val, st.min_args, 0)).2.1

/-- The mutable state of the `minimize_hillclimbing` loop (`step` is fixed
at 1.1 there and never updated). -/
structure HCState where
  min_val : ℝ
  min_args : List ℝ

/-- One iteration of the `minimize_hillclimbing` loop body (lines 465-474),
with the random coordinate for this iteration given by `rc`. -/
noncomputable def hc_round (fn : List ℝ → ℝ) (bounds : Bounds) (rc : ℕ) (st : HCState) : HCState :=
  let res := grid_scan fn (hc_generate_grid bounds st.min_args 1.1 3 rc) (st.min_val, st.min_args, 0)
  ⟨res.1, res.2.1⟩

/-- The state after `n` hill-climbing iterations, the random draw of
iteration `t` being `rs t % len(args)` (`random.randrange(len(args))`,
line 449, modelled by an arbitrary draw sequence `rs` reduced into range). -/
noncomputable def hc_state_iter (fn : List ℝ → ℝ) (bounds : Bounds) (rs : ℕ → ℕ) :
    ℕ → HCState → HCState
  | 0, st => st
  | (n + 1), st =>
    hc_state_iter fn bounds rs n (hc_round fn bounds (rs n % st.min_args.length) st)

/-- A `minimize_hillclimbing` run interrupted after `m` complete iterations
plus `p` candidate evaluations of the next one: the handler
(lines 475-479) returns the current `min_args`. -/
noncomputable def minimize_hc_interrupted (fn : List ℝ → ℝ) (initial_guess : List ℝ)
    (bounds : Bounds) (rs : ℕ → ℕ) (m p : ℕ) : List ℝ :=
  let st := hc_state_iter fn bounds rs m ⟨fn initial_guess, initial_guess⟩
  (grid_scan fn ((hc_generate_grid bounds st.min_args 1.1 3 (rs m % st.min_args.length)).take p)
    (st.min_val, st.min_args, 0)).2.1

/-! ## Theorems -/

/-- C3: for every real `lambda > 0` and integer `j ≥ 1`, `tr_poisson(lambda, j)`
equals `lambda^j / (j! * (e^lambda - 1))` when `lambda > 1e-8` and
`lambda^j / (j! * lambda)` when `lambda ≤ 1e-8`.  (Over the real-number model
no overflow or invalid floating-point condition can occur, so the
clamp-to-0 exception clause of the claim is vacuously satisfied.) -/
theorem C3_tr_poisson_formula (l : ℝ) (j : ℕ) (hl : 0 < l) (hj : 1 ≤ j) :
    (1e-8 < l → tr_poisson l j = l ^ j / (j.factorial * (Real.exp l - 1))) ∧
    (l ≤ 1e-8 → tr_poisson l j = l ^ j / (j.factorial * l)) := by
  have hexp : ¬ Real.exp l = 1 := by
    rw [Real.exp_eq_one_iff]
    exact ne_of_gt hl
  constructor
  · intro h
    rw [tr_poisson, if_neg hexp, if_pos h]
  · intro h
    rw [tr_poisson, if_neg hexp, if_neg (not_lt.mpr h)]

/-- Witness for C3 at `lambda = 1`, `j = 1`. -/
theorem C3_witness :
    (0 : ℝ) < 1 ∧ (1 : ℕ) ≤ 1 ∧
    ((1e-8 < (1 : ℝ) → tr_poisson 1 1 = 1 ^ 1 / ((Nat.factorial 1 : ℝ) * (Real.exp 1 - 1))) ∧
     ((1 : ℝ) ≤ 1e-8 → tr_poisson 1 1 = 1 ^ 1 / ((Nat.factorial 1 : ℝ) * 1))) :=
  ⟨by norm_num, le_rfl, C3_tr_poisson_formula 1 1 (by norm_num) le_rfl⟩

/-- C10: `tr_poisson` is total on `lambda ≥ 0`: when `e^lambda = 1` it
returns 0 before any division, and otherwise both candidate denominators
`j! * (e^lambda - 1)` and `j! * lambda` are nonzero, so no division by zero
is ever performed and the function never fails on non-negative arguments. -/
theorem C10_tr_poisson_total (l : ℝ) (j : ℕ) (hl : 0 ≤ l) :
    (Real.exp l = 1 → tr_poisson l j = 0) ∧
    (Real.exp l ≠ 1 →
      (j.factorial : ℝ) * (Real.exp l - 1) ≠ 0 ∧ (j.factorial : ℝ) * l ≠ 0) := by
  constructor
  · intro h
    rw [tr_poisson, if_pos h]
  · intro h
    have hl' : 0 < l := by
      rcases lt_or_eq_of_le hl with h' | h'
      · exact h'
      · exact absurd (by rw [← h', Real.exp_zero]) h
    have hfact : (0 : ℝ) < (j.factorial : ℝ) := by
      exact_mod_cast j.factorial_pos
    refine ⟨mul_ne_zero (ne_of_gt hfact) ?_, mul_ne_zero (ne_of_gt hfact) (ne_of_gt hl')⟩
    have : (1 : ℝ) < Real.exp l := Real.one_lt_exp_iff.mpr hl'
    exact sub_ne_zero_of_ne (ne_of_gt this)

/-- Witness for C10 at `lambda = 0`, `j = 0`. -/
theorem C10_witness :
    (0 : ℝ) ≤ 0 ∧
    ((Real.exp 0 = 1 → tr_poisson 0 0 = 0) ∧
     (Real.exp 0 ≠ 1 →
       ((Nat.factorial 0 : ℝ)) * (Real.exp 0 - 1) ≠ 0 ∧ ((Nat.factorial 0 : ℝ)) * 0 ≠ 0)) :=
  ⟨le_rfl, C10_tr_poisson_total 0 0 le_rfl⟩

/-- C6: both likelihood entry points return exactly `-∞` (modelled as
`⊥ : EReal`) whenever `err < 0`, `err ≥ 1` or `c ≤ 0`; being total Lean
functions, they raise no exception. -/
theorem C6_domain_guard (hist : List ℕ) (r k : ℕ) (c err q1 q2 q : ℝ)
    (h : err < 0 ∨ 1 ≤ err ∨ c ≤ 0) :
    compute_loglikelihood hist r k c err = ⊥ ∧
    compute_loglikelihood_with_repeats hist r k c err q1 q2 q = ⊥ := by
  constructor
  · rw [compute_loglikelihood, if_pos h]
  · rw [compute_loglikelihood_with_repeats, if_pos h]

/-- Witness for C6 at `err = 2`. -/
theorem C6_witness :
    ((2 : ℝ) < 0 ∨ (1 : ℝ) ≤ 2 ∨ (1 : ℝ) ≤ 0) ∧
    (compute_loglikelihood [] 100 20 1 2 = ⊥ ∧
     compute_loglikelihood_with_repeats [] 100 20 1 2 0.5 0.5 0.5 = ⊥) :=
  ⟨Or.inr (Or.inl (by norm_num)),
   C6_domain_guard [] 100 20 1 2 0.5 0.5 0.5 (Or.inr (Or.inl (by norm_num)))⟩

/-- C9: when the count of distinct k-mers observed at least twice is zero,
`compute_coverage_apx` returns the degenerate pair `(0, 1)`, and the
`main` pipeline substitutes the fixed fallback `(1, 0.5)` as the starting
point; the substitution fires exactly on the pair `(0, 1)`.  All functions
involved are total, so nothing raises. -/
theorem C9_degenerate_guess (entries : List (ℕ × ℕ)) (k r : ℕ)
    (h : unique_kmers entries = 0) :
    compute_coverage_apx (all_kmers entries) (unique_kmers entries)
      (observed_ones entries) k r = (0, 1) ∧
    main_initial_guess entries k r = (1, 0.5) ∧
    (∀ g : ℝ × ℝ, ¬(g.1 = 0 ∧ g.2 = 1) → fallback_guess g = g) := by
  have h1 : compute_coverage_apx (all_kmers entries) (unique_kmers entries)
      (observed_ones entries) k r = (0, 1) := by
    rw [compute_coverage_apx, if_pos h]
  refine ⟨h1, ?_, ?_⟩
  · rw [main_initial_guess, h1, fallback_guess, if_pos ⟨rfl, rfl⟩]
  · intro g hg
    rw [fallback_guess, if_neg hg]

/-- Witness for C9 on the empty histogram input. -/
theorem C9_witness :
    unique_kmers [] = 0 ∧
    (compute_coverage_apx (all_kmers []) (unique_kmers []) (observed_ones []) 20 100 = (0, 1) ∧
     main_initial_guess [] 20 100 = (1, 0.5) ∧
     (∀ g : ℝ × ℝ, ¬(g.1 = 0 ∧ g.2 = 1) → fallback_guess g = g)) :=
  ⟨rfl, C9_degenerate_guess [] 20 100 rfl⟩

/-- C5 (code bug): on the single-line input `5 7` the dense sequence built
by `load_dist` is `[hist[b] for b in range(max_hist)] = [0, 0, 0, 0, 0]` —
it has entries only for levels `0 .. max_j - 1` and silently drops the
count 7 stored at the largest multiplicity `max_j = 5`, contradicting the
claim that the sequence has one entry for every level `0 .. max_j` with the
count at `max_j` preserved. -/
theorem C5_load_hist_top_entry_dropped :
    load_hist [(5, 7)] = [0, 0, 0, 0, 0] ∧ (load_hist [(5, 7)]).length = 5 ∧
    hist_map [(5, 7)] 5 = 7 := by
  refine ⟨?_, by decide, by decide⟩
  decide

/-- The grid scan keeps the invariant "the best value is the objective at
the best point" and never increases the best value. -/
theorem grid_scan_spec (fn : List ℝ → ℝ) (pts : List (List ℝ)) (acc : ℝ × List ℝ × ℝ)
    (hacc : fn acc.2.1 = acc.1) :
    fn (grid_scan fn pts acc).2.1 = (grid_scan fn pts acc).1 ∧
    (grid_scan fn pts acc).1 ≤ acc.1 := by
  induction pts generalizing acc with
  | nil => exact ⟨hacc, le_rfl⟩
  | cons a t ih =>
    simp only [grid_scan, List.foldl_cons] at *
    by_cases h : fn a < acc.1
    · rw [if_pos h]
      have := ih (fn a, a, acc.2.2 + (acc.1 - fn a)) rfl
      exact ⟨this.1, le_trans this.2 (le_of_lt h)⟩
    · rw [if_neg h]
      exact ih acc hacc

/-- The rounds of both search loops keep the same invariant. -/
theorem grid_round_spec (fn : List ℝ → ℝ) (bounds : Bounds) (st : GridState)
    (hst : fn st.min_args = st.min_val) :
    fn (grid_round fn bounds st).min_args = (grid_round fn bounds st).min_val ∧
    (grid_round fn bounds st).min_val ≤ st.min_val :=
  grid_scan_spec fn (generate_grid bounds st.min_args st.step 3) (st.min_val, st.min_args, 0) hst

/-- Invariant preservation along the interruptible `minimize_grid` rounds. -/
theorem grid_state_iter_spec (fn : List ℝ → ℝ) (bounds : Bounds) (n : ℕ) (st : GridState)
    (hst : fn st.min_args = st.min_val) :
    fn (grid_state_iter fn bounds n st).min_args = (grid_state_iter fn bounds n st).min_val ∧
    (grid_state_iter fn bounds n st).min_val ≤ st.min_val := by
  induction n generalizing st with
  | zero => exact ⟨hst, le_rfl⟩
  | succ n ih =>
    rw [grid_state_iter]
    by_cases h : 0.1 < st.diff ∨ 1.001 < st.step
    · rw [if_pos h]
      have hr := grid_round_spec fn bounds st hst
      have := ih (grid_round fn bounds st) hr.1
      exact ⟨this.1, le_trans this.2 hr.2⟩
    · rw [if_neg h]
      exact ⟨hst, le_rfl⟩

/-- Invariant preservation along the hill-climbing iterations. -/
theorem hc_state_iter_spec (fn : List ℝ → ℝ) (bounds : Bounds) (rs : ℕ → ℕ) (n : ℕ)
    (st : HCState) (hst : fn st.min_args = st.min_val) :
    fn (hc_state_iter fn bounds rs n st).min_args = (hc_state_iter fn bounds rs n st).min_val ∧
    (hc_state_iter fn bounds rs n st).min_val ≤ st.min_val := by
  induction n generalizing st with
  | zero => exact ⟨hst, le_rfl⟩
  | succ n ih =>
    rw [hc_state_iter]
    have hr := grid_scan_spec fn
      (hc_generate_grid bounds st.min_args 1.1 3 (rs n % st.min_args.length))
      (st.min_val, st.min_args, 0) hst
    have := ih (hc_round fn bounds (rs n % st.min_args.length) st) hr.1
    exact ⟨this.1, le_trans this.2 hr.2⟩

/-- C8: a run of `minimize_grid` or `minimize_hillclimbing` interrupted at
any point (after `m` complete rounds plus `p` candidate evaluations of the
next round, for every `m` and `p`, and for every sequence `rs` of random
coordinate draws) returns a point whose objective value is never greater
than the objective value at the initial guess.  The interrupt handlers are
modelled by these total functions, so no exception reaches the caller. -/
theorem C8_interrupt_no_worse (fn : List ℝ → ℝ) (bounds : Bounds)
    (initial_guess : List ℝ) (rs : ℕ → ℕ) (m p : ℕ) :
    fn (minimize_grid_interrupted fn initial_guess bounds m p) ≤ fn initial_guess ∧
    fn (minimize_hc_interrupted fn initial_guess bounds rs m p) ≤ fn initial_guess := by
  constructor
  · rw [minimize_grid_interrupted]
    have h0 := grid_state_iter_spec fn bounds m ⟨fn initial_guess, initial_guess, 1.1, 1⟩ rfl
    set st := grid_state_iter fn bounds m ⟨fn initial_guess, initial_guess, 1.1, 1⟩ with hstdef
    have h1 := grid_scan_spec fn ((generate_grid bounds st.min_args st.step 3).take p)
      (st.min_val, st.min_args, 0) h0.1
    calc fn (grid_scan fn ((generate_grid bounds st.min_args st.step 3).take p)
          (st.min_val, st.min_args, 0)).2.1
        = (grid_scan fn ((generate_grid bounds st.min_args st.step 3).take p)
          (st.min_val, st.min_args, 0)).1 := h1.1
      _ ≤ st.min_val := h1.2
      _ ≤ fn initial_guess := h0.2
  · rw [minimize_hc_interrupted]
    have h0 := hc_state_iter_spec fn bounds rs m ⟨fn initial_guess, initial_guess⟩ rfl
    set st := hc_state_iter fn bounds rs m ⟨fn initial_guess, initial_guess⟩ with hstdef
    have h1 := grid_scan_spec fn
      ((hc_generate_grid bounds st.min_args 1.1 3 (rs m % st.min_args.length)).take p)
      (st.min_val, st.min_args, 0) h0.1
    calc fn (grid_scan fn
          ((hc_generate_grid bounds st.min_args 1.1 3 (rs m % st.min_args.length)).take p)
          (st.min_val, st.min_args, 0)).2.1
        = (grid_scan fn
          ((hc_generate_grid bounds st.min_args 1.1 3 (rs m % st.min_args.length)).take p)
          (st.min_val, st.min_args, 0)).1 := h1.1
      _ ≤ st.min_val := h1.2
      _ ≤ fn initial_guess := h0.2

/-- C7: in `minimize_grid`, (i) the loop stops, returning the current
state, exactly when the last round's improvement is at most 0.1 AND the
step is at most 1.001; (ii) whenever either condition fails the loop runs
another round — so neither condition alone suffices for termination;
(iii) after a round whose improvement is below 1.0 the step becomes
`1 + (step - 1) * 0.75`, and is unchanged otherwise; (iv) whenever the
loop exits through its own condition, the final state satisfies both
`diff ≤ 0.1` and `step ≤ 1.001`. -/
theorem C7_grid_loop_control (fn : List ℝ → ℝ) (bounds : Bounds) :
    (∀ (st : GridState) (n : ℕ), st.diff ≤ 0.1 → st.step ≤ 1.001 →
      grid_loop fn bounds (n + 1) st = (st, true)) ∧
    (∀ (st : GridState) (n : ℕ), 0.1 < st.diff ∨ 1.001 < st.step →
      grid_loop fn bounds (n + 1) st = grid_loop fn bounds n (grid_round fn bounds st)) ∧
    (∀ st : GridState, (grid_round fn bounds st).diff < 1 →
      (grid_round fn bounds st).step = 1 + (st.step - 1) * 0.75) ∧
    (∀ st : GridState, 1 ≤ (grid_round fn bounds st).diff →
      (grid_round fn bounds st).step = st.step) ∧
    (∀ (n : ℕ) (st st' : GridState), grid_loop fn bounds n st = (st', true) →
      st'.diff ≤ 0.1 ∧ st'.step ≤ 1.001) := by
  have hround : ∀ st : GridState,
      (grid_round fn bounds st).diff =
        (grid_scan fn (generate_grid bounds st.min_args st.step 3)
          (st.min_val, st.min_args, 0)).2.2 ∧
      (grid_round fn bounds st).step =
        (if (grid_scan fn (generate_grid bounds st.min_args st.step 3)
          (st.min_val, st.min_args, 0)).2.2 < 1 then 1 + (st.step - 1) * 0.75 else st.step) := by
    intro st
    exact ⟨rfl, rfl⟩
  refine ⟨?_, ?_, ?_, ?_, ?_⟩
  · intro st n h1 h2
    rw [grid_loop, if_neg]
    push_neg
    exact ⟨h1, h2⟩
  · intro st n h
    rw [grid_loop, if_pos h]
  · intro st h
    rw [(hround st).2, if_pos (by rw [← (hround st).1]; exact h)]
  · intro st h
    rw [(hround st).2, if_neg (by rw [← (hround st).1]; exact not_lt.mpr h)]
  · intro n
    induction n with
    | zero =>
      intro st st' h
      exact absurd (congrArg Prod.snd h) (by simp [grid_loop])
    | succ n ih =>
      intro st st' h
      rw [grid_loop] at h
      by_cases hc : 0.1 < st.diff ∨ 1.001 < st.step
      · rw [if_pos hc] at h
        exact ih (grid_round fn bounds st) st' h
      · rw [if_neg hc] at h
        push_neg at hc
        have : st = st' := congrArg Prod.fst h
        exact this ▸ ⟨hc.1, hc.2⟩

/-- Row access into `compute_repeat_table`: row `o` of the table is
`repeat_row o` whenever `o` is below the number of built rows. -/
theorem table_row (r k : ℕ) (c err : ℝ) (hist_size : ℕ) (tr : Option ℕ) (o : ℕ)
    (ho : o < max 2 (tr.getD hist_size)) :
    (compute_repeat_table r k c err hist_size tr).getD o [] =
      repeat_row r k c err hist_size o := by
  rw [compute_repeat_table, List.getD_eq_getElem?_getD, List.getElem?_map,
    List.getElem?_range ho]
  rfl

/-- Entry access into a row shaped `[None] + [g j for j in range(1, hist_size)]`. -/
theorem row_entry (g : ℕ → ℝ) (hist_size j : ℕ) (h1 : 1 ≤ j) (h2 : j < hist_size) :
    ((0 : ℝ) :: (List.range' 1 (hist_size - 1)).map g).getD j 0 = g j := by
  obtain ⟨i, rfl⟩ : ∃ i, j = i + 1 := ⟨j - 1, by omega⟩
  have hlen : i < ((List.range' 1 (hist_size - 1)).map g).length := by
    simp only [List.length_map, List.length_range']
    omega
  rw [List.getD_cons_succ, List.getD_eq_getElem _ _ hlen, List.getElem_map,
    List.getElem_range'_1]
  rw [Nat.add_comm]

/-- C4: in every table returned by `compute_repeat_table`, row 1 is
element-wise identical to the base probability vector, and every built row
`o ≥ 2` satisfies the convolution invariant
`p_oj[o][j] = Σ_{i=1}^{j-1} p_oj[1][i] * p_oj[o-1][j-i]`,
for every `j = 1 .. hist_size - 1`. -/
theorem C4_repeat_table_invariants (r k : ℕ) (c err : ℝ) (hist_size : ℕ) (tr : Option ℕ)
    (j : ℕ) (hj1 : 1 ≤ j) (hj2 : j < hist_size) :
    ((compute_repeat_table r k c err hist_size tr).getD 1 []).getD j 0 =
      (compute_probabilities r k c err hist_size).getD j 0 ∧
    (∀ o : ℕ, 2 ≤ o → o < max 2 (tr.getD hist_size) →
      ((compute_repeat_table r k c err hist_size tr).getD o []).getD j 0 =
        ∑ i ∈ Finset.Ico 1 j,
          ((compute_repeat_table r k c err hist_size tr).getD 1 []).getD i 0 *
            ((compute_repeat_table r k c err hist_size tr).getD (o - 1) []).getD (j - i) 0) := by
  have h1row : (compute_repeat_table r k c err hist_size tr).getD 1 [] =
      repeat_row r k c err hist_size 1 :=
    table_row r k c err hist_size tr 1 (lt_of_lt_of_le one_lt_two (le_max_left 2 _))
  constructor
  · rw [h1row, repeat_row, compute_probabilities]
  · intro o ho2 holt
    obtain ⟨m, rfl⟩ : ∃ m, o = m + 2 := ⟨o - 2, by omega⟩
    have hmrow : (compute_repeat_table r k c err hist_size tr).getD (m + 2 - 1) [] =
        repeat_row r k c err hist_size (m + 1) :=
      table_row r k c err hist_size tr (m + 1) (by omega)
    rw [table_row r k c err hist_size tr (m + 2) holt, h1row, hmrow]
    conv_lhs => rw [repeat_row]
    rw [row_entry _ hist_size j hj1 hj2]

/-- Witness for C4 at `r = 2, k = 1, c = 1, err = 0, hist_size = 2,
no truncation bound, j = 1`. -/
theorem C4_witness :
    1 ≤ 1 ∧ 1 < 2 ∧
    (((compute_repeat_table 2 1 1 0 2 none).getD 1 []).getD 1 0 =
      (compute_probabilities 2 1 1 0 2).getD 1 0 ∧
    (∀ o : ℕ, 2 ≤ o → o < max 2 ((none : Option ℕ).getD 2) →
      ((compute_repeat_table 2 1 1 0 2 none).getD o []).getD 1 0 =
        ∑ i ∈ Finset.Ico 1 1,
          ((compute_repeat_table 2 1 1 0 2 none).getD 1 []).getD i 0 *
            ((compute_repeat_table 2 1 1 0 2 none).getD (o - 1) []).getD (1 - i) 0)) :=
  ⟨le_rfl, one_lt_two,
    C4_repeat_table_invariants 2 1 1 0 2 none 1 le_rfl one_lt_two⟩

/-- C1 (amended): when the truncation bound `o*` exists, the marginal
probability function returned by `compute_probabilities_with_repeats`
satisfies, for every `1 ≤ j < hist_size`,
`p_j(j) = Σ_{o=1}^{min(j, o* - 1)} b_o(o) * p_oj[o][j]` — the sum stops
strictly below the truncation bound (`o` ranges over
`range(1, min(j + 1, o*))`), not at `min(j, o*)` as the claim states. -/
theorem C1_mixture_sum_amended (r k : ℕ) (c err q1 q2 q : ℝ) (hist_size t j : ℕ)
    (ht : treshold_o_of q1 q2 q hist_size (some 1e-8) = some t)
    (hj1 : 1 ≤ j) (hj2 : j < hist_size) :
    p_j_with_repeats r k c err q1 q2 q hist_size (some 1e-8) j =
      ∑ o ∈ Finset.Ico 1 (min (j + 1) t),
        b_o q1 q2 q o *
          ((compute_repeat_table r k c err hist_size (some t)).getD o []).getD j 0 := by
  simp only [p_j_with_repeats, ht]

/-- Witness for C1 at `r = 2, k = 1, c = 1, err = 0, q1 = 1e-9,
q2 = q = 0.5, hist_size = 3, j = 1` (where the truncation bound is
`o* = 1`). -/
theorem C1_witness :
    treshold_o_of 1e-9 0.5 0.5 3 (some 1e-8) = some 1 ∧ 1 ≤ 1 ∧ 1 < 3 ∧
    p_j_with_repeats 2 1 1 0 1e-9 0.5 0.5 3 (some 1e-8) 1 =
      ∑ o ∈ Finset.Ico 1 (min (1 + 1) 1),
        b_o 1e-9 0.5 0.5 o *
          ((compute_repeat_table 2 1 1 0 3 (some 1)).getD o []).getD 1 0 := by
  have ht : treshold_o_of 1e-9 0.5 0.5 3 (some 1e-8) = some 1 := by
    rw [treshold_o_of]
    rw [show (3 : ℕ) - 1 = 2 from rfl, find_treshold, if_pos]
    rw [b_o, if_pos rfl]
    norm_num
  exact ⟨ht, le_rfl, by norm_num,
    C1_mixture_sum_amended 2 1 1 0 1e-9 0.5 0.5 3 1 1 ht le_rfl (by norm_num)⟩

/-- The value `p_j(1) = 1 / (e - 1)` of the base model at
`r = 2, k = 1, c = 1, err = 0`. -/
theorem p_j_concrete : p_j 2 1 1 0 1 = 1 / (Real.exp 1 - 1) := by
  have hlam0 : lam 2 1 1 0 0 = 1 := by
    norm_num [lam, c_kmer]
  have hlam1 : lam 2 1 1 0 1 = 0 := by
    norm_num [lam, c_kmer]
  have hexp1 : Real.exp (-1) < 1 := by
    rw [Real.exp_lt_one_iff]
    norm_num
  have hn0 : n_s 2 1 1 0 0 = 1 - Real.exp (-1) := by
    rw [n_s, hlam0]
    norm_num
  have hn1 : n_s 2 1 1 0 1 = 0 := by
    rw [n_s, hlam1]
    norm_num [Real.exp_zero]
  have hsum : sum_n_s 2 1 1 0 = 1 - Real.exp (-1) := by
    rw [sum_n_s, Finset.sum_range_succ, Finset.sum_range_one, hn0, hn1, add_zero]
  have hsumne : sum_n_s 2 1 1 0 ≠ 0 := by
    rw [hsum]
    exact ne_of_gt (by linarith)
  have ha0 : a_s 2 1 1 0 0 = 1 := by
    rw [a_s, if_neg hsumne, hn0, ← hsum]
    exact div_self hsumne
  have ha1 : a_s 2 1 1 0 1 = 0 := by
    rw [a_s, if_neg hsumne, hn1, zero_div]
  have htp0 : tr_poisson (lam 2 1 1 0 0) 1 = 1 / (Real.exp 1 - 1) := by
    rw [hlam0, tr_poisson, if_neg, if_pos (by norm_num)]
    · norm_num [Nat.factorial]
    · rw [Real.exp_eq_one_iff]
      norm_num
  rw [p_j, Finset.sum_range_succ, Finset.sum_range_one, ha0, ha1, htp0]
  ring

/-- C1 counterexample: at `r = 2, k = 1, c = 1, err = 0, q1 = 1e-9,
q2 = q = 0.5, hist_size = 3`, the truncation bound is `o* = 1` (since
`b_o(1) = 1e-9 < 1e-8`), and at `j = 1` the function returned by
`compute_probabilities_with_repeats` gives `p_j(1) = 0` (the empty sum over
`range(1, min(2, 1))`), while the claimed `Σ_{o=1}^{min(j, o*)} b_o(o) *
p_oj[o][j] = b_o(1) * p_oj[1][1] = 1e-9 / (e - 1) ≠ 0`. -/
theorem C1_counterexample :
    treshold_o_of 1e-9 0.5 0.5 3 (some 1e-8) = some 1 ∧
    p_j_with_repeats 2 1 1 0 1e-9 0.5 0.5 3 (some 1e-8) 1 ≠
      ∑ o ∈ Finset.Icc 1 (min 1 1),
        b_o 1e-9 0.5 0.5 o *
          ((compute_repeat_table 2 1 1 0 3 (some 1)).getD o []).getD 1 0 := by
  have ht : treshold_o_of 1e-9 0.5 0.5 3 (some 1e-8) = some 1 := by
    rw [treshold_o_of]
    rw [show (3 : ℕ) - 1 = 2 from rfl, find_treshold, if_pos]
    rw [b_o, if_pos rfl]
    norm_num
  refine ⟨ht, ?_⟩
  have hlhs : p_j_with_repeats 2 1 1 0 1e-9 0.5 0.5 3 (some 1e-8) 1 = 0 := by
    simp only [p_j_with_repeats, ht]
    norm_num
  have hrow : ((compute_repeat_table 2 1 1 0 3 (some 1)).getD 1 []).getD 1 0 =
      p_j 2 1 1 0 1 := by
    rw [table_row 2 1 1 0 3 (some 1) 1 (by norm_num), repeat_row,
      row_entry _ 3 1 le_rfl (by norm_num)]
  have hrhs : ∑ o ∈ Finset.Icc 1 (min 1 1),
      b_o 1e-9 0.5 0.5 o *
        ((compute_repeat_table 2 1 1 0 3 (some 1)).getD o []).getD 1 0 =
      1e-9 * (1 / (Real.exp 1 - 1)) := by
    rw [min_self, Finset.Icc_self, Finset.sum_singleton, hrow, p_j_concrete,
      b_o, if_pos rfl]
  rw [hlhs, hrhs]
  have hgt : (0 : ℝ) < Real.exp 1 - 1 := by
    have := Real.one_lt_exp_iff.mpr (one_pos : (0 : ℝ) < 1)
    linarith
  exact ne_of_lt (mul_pos (by norm_num) (one_div_pos.mpr hgt))

/-- `tr_poisson` is non-negative on non-negative rates. -/
theorem tr_poisson_nonneg (l : ℝ) (j : ℕ) (hl : 0 ≤ l) : 0 ≤ tr_poisson l j := by
  rw [tr_poisson]
  split_ifs with h1 h2
  · exact le_rfl
  · have hel : (0 : ℝ) ≤ Real.exp l - 1 := by
      have := Real.one_lt_exp_iff.mpr (lt_of_lt_of_le (by norm_num : (0:ℝ) < 1e-8) h2.le)
      linarith
    exact div_nonneg (pow_nonneg hl j) (mul_nonneg (Nat.cast_nonneg _) hel)
  · exact div_nonneg (pow_nonneg hl j) (mul_nonneg (Nat.cast_nonneg _) hl)

/-- For `l ≥ 0` and `j ≥ 1`, `l^j / j! ≤ e^l - 1`: the term is one of the
positive-index terms of the exponential series. -/
theorem pow_div_factorial_le (l : ℝ) (j : ℕ) (hl : 0 ≤ l) (hj : 1 ≤ j) :
    l ^ j / (j.factorial : ℝ) ≤ Real.exp l - 1 := by
  have hsum := Real.sum_le_exp_of_nonneg hl (j + 1)
  have hsubset : ({0, j} : Finset ℕ) ⊆ Finset.range (j + 1) := by
    intro x hx
    rw [Finset.mem_insert, Finset.mem_singleton] at hx
    rw [Finset.mem_range]
    omega
  have hpair : ∑ i ∈ ({0, j} : Finset ℕ), l ^ i / (i.factorial : ℝ) =
      1 + l ^ j / (j.factorial : ℝ) := by
    rw [Finset.sum_pair (by omega : (0 : ℕ) ≠ j)]
    norm_num [Nat.factorial]
  have hle : ∑ i ∈ ({0, j} : Finset ℕ), l ^ i / (i.factorial : ℝ) ≤
      ∑ i ∈ Finset.range (j + 1), l ^ i / (i.factorial : ℝ) :=
    Finset.sum_le_sum_of_subset_of_nonneg hsubset
      (fun i _ _ => div_nonneg (pow_nonneg hl i) (Nat.cast_nonneg _))
  rw [hpair] at hle
  linarith

/-- `tr_poisson l j ≤ 1` for `l ≥ 0` and `j ≥ 1`. -/
theorem tr_poisson_le_one (l : ℝ) (j : ℕ) (hl : 0 ≤ l) (hj : 1 ≤ j) :
    tr_poisson l j ≤ 1 := by
  rw [tr_poisson]
  split_ifs with h1 h2
  · norm_num
  · have hl0 : (0 : ℝ) < l := lt_of_lt_of_le (by norm_num) h2.le
    have hel : (0 : ℝ) < Real.exp l - 1 := by
      have := Real.one_lt_exp_iff.mpr hl0
      linarith
    have hfact : (0 : ℝ) < (j.factorial : ℝ) := by exact_mod_cast j.factorial_pos
    rw [div_le_one (mul_pos hfact hel)]
    have := pow_div_factorial_le l j hl hj
    calc l ^ j = (l ^ j / (j.factorial : ℝ)) * (j.factorial : ℝ) := by
          field_simp
      _ ≤ (Real.exp l - 1) * (j.factorial : ℝ) :=
          mul_le_mul_of_nonneg_right this hfact.le
      _ = (j.factorial : ℝ) * (Real.exp l - 1) := mul_comm _ _
  · have hlne : l ≠ 0 := by
      intro e
      exact h1 (by rw [e, Real.exp_zero])
    have hl0 : (0 : ℝ) < l := lt_of_le_of_ne hl (Ne.symm hlne)
    have hle1 : l ≤ 1e-8 := not_lt.mp h2
    obtain ⟨i, rfl⟩ : ∃ i, j = i + 1 := ⟨j - 1, by omega⟩
    have hfact : (0 : ℝ) < ((i + 1).factorial : ℝ) := by exact_mod_cast (i + 1).factorial_pos
    have hred : l ^ (i + 1) / (((i + 1).factorial : ℝ) * l) = l ^ i / ((i + 1).factorial : ℝ) := by
      rw [pow_succ]
      field_simp
      ring
    rw [hred, div_le_one hfact]
    have hone : 1 ≤ ((i + 1).factorial : ℝ) := by
      exact_mod_cast Nat.succ_le_of_lt (i + 1).factorial_pos
    calc l ^ i ≤ 1 := pow_le_one₀ hl (by linarith)
      _ ≤ ((i + 1).factorial : ℝ) := hone

/-- The tail `Σ_{j=2}^{J-1} 1/j!` of the exponential series at 1 is at
most 1 (it is `e - 2 < 1`). -/
theorem sum_inv_factorial_tail_le (J : ℕ) :
    ∑ j ∈ Finset.Ico 2 J, (1 : ℝ) / (j.factorial : ℝ) ≤ 1 := by
  rcases le_or_lt J 2 with hJ | hJ
  · rw [Finset.Ico_eq_empty (by omega)]
    norm_num
  · have h := Real.sum_le_exp_of_nonneg (zero_le_one) J
    have h1 : ∑ i ∈ Finset.range J, (1 : ℝ) ^ i / (i.factorial : ℝ) =
        ∑ i ∈ Finset.range J, (1 : ℝ) / (i.factorial : ℝ) := by
      refine Finset.sum_congr rfl fun i _ => ?_
      rw [one_pow]
    rw [h1, Finset.range_eq_Ico,
      Finset.sum_eq_sum_Ico_succ_bot (by omega : 0 < J),
      Finset.sum_eq_sum_Ico_succ_bot (by omega : 1 < J)] at h
    have he : Real.exp 1 < 2.7182818286 := Real.exp_one_lt_d9
    simp only [one_div] at h ⊢
    norm_num [Nat.factorial] at h
    linarith

/-- Per error class, the partial mass `Σ_{j=1}^{J-1} tr_poisson(l, j)` is at
most `1 + 1e-8`: at most 1 through the exact truncated-Poisson branch, and
at most `1 + l ≤ 1 + 1e-8` through the small-rate branch. -/
theorem tr_poisson_sum_le (l : ℝ) (J : ℕ) (hl : 0 ≤ l) :
    ∑ j ∈ Finset.Ico 1 J, tr_poisson l j ≤ 1 + 1e-8 := by
  by_cases h1 : Real.exp l = 1
  · rw [Finset.sum_eq_zero fun j _ => by rw [tr_poisson, if_pos h1]]
    norm_num
  · have hlne : l ≠ 0 := by
      intro e
      exact h1 (by rw [e, Real.exp_zero])
    have hl0 : (0 : ℝ) < l := lt_of_le_of_ne hl (Ne.symm hlne)
    by_cases h2 : 1e-8 < l
    · have hel : (0 : ℝ) < Real.exp l - 1 := by
        have := Real.one_lt_exp_iff.mpr hl0
        linarith
      have hterm : ∀ j ∈ Finset.Ico 1 J,
          tr_poisson l j = (l ^ j / (j.factorial : ℝ)) / (Real.exp l - 1) := by
        intro j _
        rw [tr_poisson, if_neg h1, if_pos h2, div_div]
      rw [Finset.sum_congr rfl hterm, ← Finset.sum_div]
      have hnum : ∑ j ∈ Finset.Ico 1 J, l ^ j / (j.factorial : ℝ) ≤ Real.exp l - 1 := by
        rcases Nat.eq_zero_or_pos J with rfl | hJ
        · rw [show Finset.Ico 1 0 = ∅ from rfl, Finset.sum_empty]
          have := Real.one_lt_exp_iff.mpr hl0
          linarith
        · have h := Real.sum_le_exp_of_nonneg hl J
          rw [Finset.range_eq_Ico, Finset.sum_eq_sum_Ico_succ_bot hJ] at h
          norm_num [Nat.factorial] at h
          linarith
      have := div_le_one_of_le₀ hnum hel.le
      linarith
    · have hle1 : l ≤ 1e-8 := not_lt.mp h2
      have hterm : ∀ j ∈ Finset.Ico 1 J,
          tr_poisson l j = l ^ (j - 1) / (j.factorial : ℝ) := by
        intro j hj
        obtain ⟨hj1, _⟩ := Finset.mem_Ico.mp hj
        obtain ⟨i, rfl⟩ : ∃ i, j = i + 1 := ⟨j - 1, by omega⟩
        rw [tr_poisson, if_neg h1, if_neg h2, pow_succ]
        rw [Nat.add_sub_cancel]
        field_simp
        ring
      rw [Finset.sum_congr rfl hterm]
      rcases le_or_lt J 1 with hJ | hJ
      · rw [Finset.Ico_eq_empty (by omega)]
        norm_num
      · rw [Finset.sum_eq_sum_Ico_succ_bot hJ]
        have htail : ∑ j ∈ Finset.Ico 2 J, l ^ (j - 1) / (j.factorial : ℝ) ≤
            l * 1 := by
          calc ∑ j ∈ Finset.Ico 2 J, l ^ (j - 1) / (j.factorial : ℝ)
              ≤ ∑ j ∈ Finset.Ico 2 J, l / (j.factorial : ℝ) := by
                refine Finset.sum_le_sum fun j hj => ?_
                obtain ⟨hj2, _⟩ := Finset.mem_Ico.mp hj
                have hfact : (0 : ℝ) < (j.factorial : ℝ) := by
                  exact_mod_cast j.factorial_pos
                gcongr
                calc l ^ (j - 1) ≤ l ^ 1 :=
                      pow_le_pow_of_le_one hl (by linarith) (by omega)
                  _ = l := pow_one l
            _ = l * ∑ j ∈ Finset.Ico 2 J, (1 : ℝ) / (j.factorial : ℝ) := by
                rw [Finset.mul_sum]
                refine Finset.sum_congr rfl fun j _ => ?_
                rw [mul_one_div]
            _ ≤ l * 1 := mul_le_mul_of_nonneg_left (sum_inv_factorial_tail_le J) hl
        norm_num [Nat.factorial] at htail ⊢
        linarith

/-- Each Poisson rate `l_s[s]` is non-negative for valid parameters. -/
theorem lam_nonneg (r k : ℕ) (c err : ℝ) (s : ℕ) (hkr : k < r) (hc : 0 ≤ c)
    (he0 : 0 ≤ err) (he1 : err ≤ 1) : 0 ≤ lam r k c err s := by
  have hr : (0 : ℝ) < r := by
    have : 0 < r := by omega
    exact_mod_cast this
  have hrk : (0 : ℝ) ≤ (r : ℝ) - k + 1 := by
    have : (k : ℝ) < r := by exact_mod_cast hkr
    linarith
  rw [lam, c_kmer]
  have h1 : (0 : ℝ) ≤ c * ((r : ℝ) - k + 1) / r :=
    div_nonneg (mul_nonneg hc hrk) hr.le
  exact mul_nonneg (mul_nonneg (mul_nonneg h1 (zpow_nonneg (by norm_num) _))
    (pow_nonneg (by linarith) _)) (pow_nonneg he0 _)

/-- Each class share `n_s[s]` is non-negative for valid parameters. -/
theorem n_s_nonneg (r k : ℕ) (c err : ℝ) (s : ℕ) (hkr : k < r) (hc : 0 ≤ c)
    (he0 : 0 ≤ err) (he1 : err ≤ 1) : 0 ≤ n_s r k c err s := by
  rw [n_s]
  have hlam := lam_nonneg r k c err s hkr hc he0 he1
  have hexp : Real.exp (-(lam r k c err s)) ≤ 1 := by
    rw [Real.exp_le_one_iff]
    linarith
  exact mul_nonneg (mul_nonneg (Nat.cast_nonneg _) (pow_nonneg (by norm_num) _))
    (by linarith)

/-- The normalization denominator is non-negative. -/
theorem sum_n_s_nonneg (r k : ℕ) (c err : ℝ) (hkr : k < r) (hc : 0 ≤ c)
    (he0 : 0 ≤ err) (he1 : err ≤ 1) : 0 ≤ sum_n_s r k c err :=
  Finset.sum_nonneg fun s _ => n_s_nonneg r k c err s hkr hc he0 he1

/-- Each mixture weight `a_s[s]` is non-negative for valid parameters. -/
theorem a_s_nonneg (r k : ℕ) (c err : ℝ) (s : ℕ) (hkr : k < r) (hc : 0 ≤ c)
    (he0 : 0 ≤ err) (he1 : err ≤ 1) : 0 ≤ a_s r k c err s := by
  rw [a_s]
  refine div_nonneg (n_s_nonneg r k c err s hkr hc he0 he1) ?_
  split_ifs with h
  · norm_num
  · exact sum_n_s_nonneg r k c err hkr hc he0 he1

/-- The mixture weights sum to at most 1 (exactly 1 except in the
degenerate all-zero case handled by the division-by-zero fix, where they
are all 0). -/
theorem a_s_sum_le_one (r k : ℕ) (c err : ℝ) (hkr : k < r) (hc : 0 ≤ c)
    (he0 : 0 ≤ err) (he1 : err ≤ 1) :
    ∑ s ∈ Finset.range (k + 1), a_s r k c err s ≤ 1 := by
  by_cases h : sum_n_s r k c err = 0
  · have hz : ∀ s ∈ Finset.range (k + 1), a_s r k c err s = 0 := by
      intro s hs
      have := (Finset.sum_eq_zero_iff_of_nonneg
        (fun t _ => n_s_nonneg r k c err t hkr hc he0 he1)).mp h s hs
      rw [a_s, if_pos h, this, zero_div]
    rw [Finset.sum_eq_zero hz]
    norm_num
  · have : ∑ s ∈ Finset.range (k + 1), a_s r k c err s =
        (∑ s ∈ Finset.range (k + 1), n_s r k c err s) / sum_n_s r k c err := by
      simp only [a_s, if_neg h]
      rw [Finset.sum_div]
    rw [this, show (∑ s ∈ Finset.range (k + 1), n_s r k c err s) = sum_n_s r k c err from rfl,
      div_self h]

/-- Each entry of the base probability vector is non-negative. -/
theorem p_j_nonneg (r k : ℕ) (c err : ℝ) (j : ℕ) (hkr : k < r) (hc : 0 ≤ c)
    (he0 : 0 ≤ err) (he1 : err ≤ 1) : 0 ≤ p_j r k c err j :=
  Finset.sum_nonneg fun s _ =>
    mul_nonneg (a_s_nonneg r k c err s hkr hc he0 he1)
      (tr_poisson_nonneg _ j (lam_nonneg r k c err s hkr hc he0 he1))

/-- Each entry of the base probability vector is at most 1. -/
theorem p_j_le_one (r k : ℕ) (c err : ℝ) (j : ℕ) (hkr : k < r) (hc : 0 ≤ c)
    (he0 : 0 ≤ err) (he1 : err ≤ 1) (hj : 1 ≤ j) : p_j r k c err j ≤ 1 := by
  rw [p_j]
  calc ∑ s ∈ Finset.range (k + 1), a_s r k c err s * tr_poisson (lam r k c err s) j
      ≤ ∑ s ∈ Finset.range (k + 1), a_s r k c err s :=
        Finset.sum_le_sum fun s _ =>
          mul_le_of_le_one_right (a_s_nonneg r k c err s hkr hc he0 he1)
            (tr_poisson_le_one _ j (lam_nonneg r k c err s hkr hc he0 he1) hj)
    _ ≤ 1 := a_s_sum_le_one r k c err hkr hc he0 he1

/-- C2 (amended): for `r > k ≥ 1`, `c > 0`, `err ∈ [0,1)` and
`max_hist ≥ 2`, every entry `p_j[j]` (`1 ≤ j < max_hist`) of the vector
returned by `compute_probabilities` lies in `[0, 1]` (entries are real
numbers, hence finite by construction of the model), and the sum of the
entries is at most `1 + 1e-8` — not at most 1 as claimed: the small-rate
branch of `tr_poisson` (rates `≤ 1e-8`) overshoots the truncated-Poisson
mass by a factor `(e^l - 1)/l > 1`, which can push the total just above 1,
but never above `1 + 1e-8`. -/
theorem C2_vector_bounds_amended (r k : ℕ) (c err : ℝ) (max_hist : ℕ)
    (hk : 1 ≤ k) (hkr : k < r) (hc : 0 < c) (he0 : 0 ≤ err) (he1 : err < 1)
    (hmh : 2 ≤ max_hist) :
    (∀ j, 1 ≤ j → j < max_hist →
      0 ≤ (compute_probabilities r k c err max_hist).getD j 0 ∧
      (compute_probabilities r k c err max_hist).getD j 0 ≤ 1) ∧
    ∑ j ∈ Finset.Ico 1 max_hist,
      (compute_probabilities r k c err max_hist).getD j 0 ≤ 1 + 1e-8 := by
  constructor
  · intro j hj1 hj2
    rw [compute_probabilities, row_entry _ max_hist j hj1 hj2]
    exact ⟨p_j_nonneg r k c err j hkr hc.le he0 he1.le,
      p_j_le_one r k c err j hkr hc.le he0 he1.le hj1⟩
  · have hrw : ∀ j ∈ Finset.Ico 1 max_hist,
        (compute_probabilities r k c err max_hist).getD j 0 = p_j r k c err j := by
      intro j hj
      obtain ⟨hj1, hj2⟩ := Finset.mem_Ico.mp hj
      rw [compute_probabilities, row_entry _ max_hist j hj1 hj2]
    rw [Finset.sum_congr rfl hrw]
    simp only [p_j]
    rw [Finset.sum_comm]
    calc ∑ s ∈ Finset.range (k + 1), ∑ j ∈ Finset.Ico 1 max_hist,
          a_s r k c err s * tr_poisson (lam r k c err s) j
        = ∑ s ∈ Finset.range (k + 1),
            a_s r k c err s * ∑ j ∈ Finset.Ico 1 max_hist, tr_poisson (lam r k c err s) j := by
          refine Finset.sum_congr rfl fun s _ => ?_
          rw [Finset.mul_sum]
      _ ≤ ∑ s ∈ Finset.range (k + 1), a_s r k c err s * (1 + 1e-8) :=
          Finset.sum_le_sum fun s _ =>
            mul_le_mul_of_nonneg_left
              (tr_poisson_sum_le _ max_hist (lam_nonneg r k c err s hkr hc.le he0 he1.le))
              (a_s_nonneg r k c err s hkr hc.le he0 he1.le)
      _ = (∑ s ∈ Finset.range (k + 1), a_s r k c err s) * (1 + 1e-8) := by
          rw [← Finset.sum_mul]
      _ ≤ 1 * (1 + 1e-8) :=
          mul_le_mul_of_nonneg_right (a_s_sum_le_one r k c err hkr hc.le he0 he1.le)
            (by norm_num)
      _ = 1 + 1e-8 := one_mul _

/-- Witness for C2 (amended) at `r = 2, k = 1, c = 1, err = 0, max_hist = 2`. -/
theorem C2_witness :
    1 ≤ 1 ∧ 1 < 2 ∧ (0 : ℝ) < 1 ∧ (0 : ℝ) ≤ 0 ∧ (0 : ℝ) < 1 ∧ 2 ≤ 2 ∧
    ((∀ j, 1 ≤ j → j < 2 →
      0 ≤ (compute_probabilities 2 1 1 0 2).getD j 0 ∧
      (compute_probabilities 2 1 1 0 2).getD j 0 ≤ 1) ∧
    ∑ j ∈ Finset.Ico 1 2, (compute_probabilities 2 1 1 0 2).getD j 0 ≤ 1 + 1e-8) :=
  ⟨le_rfl, one_lt_two, one_pos, le_rfl, one_pos, le_rfl,
    C2_vector_bounds_amended 2 1 1 0 2 le_rfl one_lt_two one_pos le_rfl one_pos le_rfl⟩

/-- For `k = 1, r = 2, err = 0` the base vector collapses to a single
truncated-Poisson class: `p_j(j) = tr_poisson(c_kmer, j)` with
`c_kmer = c`. -/
theorem p_j_k1_err0 (c : ℝ) (hc : 0 < c) (j : ℕ) :
    p_j 2 1 c 0 j = tr_poisson c j := by
  have hlam0 : lam 2 1 c 0 0 = c := by
    norm_num [lam, c_kmer]
  have hlam1 : lam 2 1 c 0 1 = 0 := by
    norm_num [lam, c_kmer]
  have hexpc : Real.exp (-c) < 1 := by
    rw [Real.exp_lt_one_iff]
    linarith
  have hn0 : n_s 2 1 c 0 0 = 1 - Real.exp (-c) := by
    rw [n_s, hlam0]
    norm_num
  have hn1 : n_s 2 1 c 0 1 = 0 := by
    rw [n_s, hlam1]
    norm_num [Real.exp_zero]
  have hsum : sum_n_s 2 1 c 0 = 1 - Real.exp (-c) := by
    rw [sum_n_s, Finset.sum_range_succ, Finset.sum_range_one, hn0, hn1, add_zero]
  have hsumne : sum_n_s 2 1 c 0 ≠ 0 := by
    rw [hsum]
    exact ne_of_gt (by linarith)
  have ha0 : a_s 2 1 c 0 0 = 1 := by
    rw [a_s, if_neg hsumne, hn0, ← hsum]
    exact div_self hsumne
  have ha1 : a_s 2 1 c 0 1 = 0 := by
    rw [a_s, if_neg hsumne, hn1, zero_div]
  have htp1 : tr_poisson (lam 2 1 c 0 1) j = 0 := by
    rw [hlam1, tr_poisson, if_pos Real.exp_zero]
  rw [p_j, Finset.sum_range_succ, Finset.sum_range_one, ha0, ha1, htp1, hlam0]
  ring

/-- C2 counterexample: at `r = 2, k = 1, c = 1e-9, err = 0, max_hist = 3`
(all the claim's hypotheses hold) the vector sums to `1 + 5e-10 > 1`:
the small-rate branch gives `p_1 = 1` and `p_2 = 5e-10`. -/
theorem C2_counterexample :
    1 < ∑ j ∈ Finset.Ico 1 3, (compute_probabilities 2 1 1e-9 0 3).getD j 0 := by
  have hexpne : ¬ Real.exp 1e-9 = 1 := by
    rw [Real.exp_eq_one_iff]
    norm_num
  have hp1 : p_j 2 1 1e-9 0 1 = 1 := by
    rw [p_j_k1_err0 1e-9 (by norm_num) 1, tr_poisson, if_neg hexpne,
      if_neg (by norm_num : ¬ (1e-8 : ℝ) < 1e-9)]
    norm_num [Nat.factorial]
  have hp2 : p_j 2 1 1e-9 0 2 = 5e-10 := by
    rw [p_j_k1_err0 1e-9 (by norm_num) 2, tr_poisson, if_neg hexpne,
      if_neg (by norm_num : ¬ (1e-8 : ℝ) < 1e-9)]
    norm_num [Nat.factorial]
  rw [Finset.sum_eq_sum_Ico_succ_bot (by norm_num : 1 < 3),
    Finset.sum_eq_sum_Ico_succ_bot (by norm_num : 2 < 3),
    show Finset.Ico 3 3 = ∅ from Finset.Ico_self 3, Finset.sum_empty,
    compute_probabilities, row_entry _ 3 1 le_rfl (by norm_num),
    row_entry _ 3 2 (by norm_num) (by norm_num), hp1, hp2]
  norm_num

end CovEst
